import Mathlib

/-!
# A verification development for BotanyDictionaryJava

Shallow embedding of `src/BotanyDict/database/utils/convert_to_sql.py`.

The Python module converts taxonomy dump files into SQL. Its pieces are:
`parse_division` (division.dmp loader), `get_descendants` (BFS subtree
selector over the node mapping), `parse_names` (scientific-name loader
filtered by the subtree set) and `export_sql_with_division` (SQL renderer).

Modelling conventions:
* a Python `dict` is an association list kept in insertion order
  (`dinsert` replaces in place, appends fresh keys at the end);
* Python `int` is `Int`;
* Python `str.strip` and `str.split` on a fixed separator are modelled by
  the structural functions `pyStrip` and `pySplit` over the character list,
  so that every definition evaluates inside the kernel;
* fallible code (`int(...)`, `parts[k]`, `nodes[tax_id]`) returns `Option`;
* the BFS and DFS loops take explicit fuel and signal exhaustion with
  `none`; termination theorems show the chosen fuel always suffices.
-/

namespace BotanyDict

variable {α : Type}

/-- A Python dict with `Int` keys, modelled as an association list in
insertion order. -/
abbrev Dict (α : Type) := List (Int × α)

/-- Python dict assignment `d[k] = v`: an existing binding is replaced in
place (keeping its position), a fresh key is appended at the end. -/
def dinsert (k : Int) (v : α) : Dict α → Dict α
  | [] => [(k, v)]
  | (q, w) :: rest => if q = k then (k, v) :: rest else (q, w) :: dinsert k v rest

/-- Python dict lookup `d[k]`, as an `Option` (a `KeyError` is `none`). -/
def dlookup (k : Int) : Dict α → Option α
  | [] => none
  | (q, w) :: rest => if q = k then some w else dlookup k rest

/-- First of two options that is `some`, used to phrase last-wins lookups. -/
def oget (a b : Option α) : Option α :=
  match a with
  | some v => some v
  | none => b

/-! ## String helpers modelling Python `str` operations -/

/-- Drop leading and trailing whitespace from a character list. -/
def trimChars (l : List Char) : List Char :=
  ((l.dropWhile Char.isWhitespace).reverse.dropWhile Char.isWhitespace).reverse

/-- Python `str.strip()`. -/
def pyStrip (s : String) : String :=
  String.mk (trimChars s.toList)

/-- `leadsWith pat l` is true when `pat` is an initial segment of `l`. -/
def leadsWith : List Char → List Char → Bool
  | [], _ => true
  | _ :: _, [] => false
  | p :: ps, c :: cs => p == c && leadsWith ps cs

/-- Worker for `pySplit`; the fuel is an upper bound on the input length,
so the middle branch is never taken when the separator is nonempty. -/
def splitGo (sep : List Char) : Nat → List Char → List Char → List (List Char)
  | _, acc, [] => [acc.reverse]
  | 0, acc, rest => [acc.reverse ++ rest]
  | fuel + 1, acc, c :: rest =>
      if leadsWith sep (c :: rest) then
        acc.reverse :: splitGo sep fuel [] ((c :: rest).drop sep.length)
      else
        splitGo sep fuel (c :: acc) rest

/-- Python `s.split(sep)` for a nonempty separator `sep`. -/
def pySplit (s : String) (sep : String) : List String :=
  (splitGo sep.toList s.toList.length [] s.toList).map String.mk

/-- Python `int(s)` for the decimal forms appearing in dump files: optional
surrounding whitespace, an optional sign, then one or more digits. -/
def pyParseInt (s : String) : Option Int :=
  let natVal : List Char → Nat := fun ds => ds.foldl (fun n c => 10 * n + (c.toNat - 48)) 0
  match (pyStrip s).toList with
  | [] => none
  | '-' :: ds =>
      if ds ≠ [] ∧ ds.all Char.isDigit then some (-(natVal ds : Int)) else none
  | '+' :: ds =>
      if ds ≠ [] ∧ ds.all Char.isDigit then some (natVal ds : Int) else none
  | ds =>
      if ds.all Char.isDigit then some (natVal ds : Int) else none

/-! ## The node mapping and its child index -/

/-- One value of the node mapping: `(parent_id, rank, division_id)`. -/
abbrev Node := Int × String × Int

/-- The node mapping produced by `parse_nodes_with_division`. -/
abbrev NodesList := Dict Node

/-- The child index built at the top of `get_descendants`:
`children_map[parent_id]` lists the tax_ids whose parent is `parent_id`,
in node-mapping iteration order. -/
def childrenMap (nodes : NodesList) (p : Int) : List Int :=
  (nodes.filter (fun e => e.2.1 == p)).map (fun e => e.1)

/-- The set of parent ids that occur in the node mapping (the support of
`childrenMap`). -/
def parentsOf (nodes : NodesList) : Finset Int :=
  (nodes.map (fun e => e.2.1)).toFinset

/-- The keys of the node mapping. -/
def keysOf (nodes : NodesList) : Finset Int :=
  (nodes.map Prod.fst).toFinset

/-- The parent-to-child edge relation of the child index: `childEdge nodes a b`
holds when `b` is listed as a child of `a`. -/
def childEdge (nodes : NodesList) (a b : Int) : Prop :=
  b ∈ childrenMap nodes a

/-! ## The BFS of get_descendants -/

/-- The children of `c` that are appended to the queue when `c` is dequeued:
those not already in the visited set (which contains `c` by then). -/
def appL (cm : Int → List Int) (c : Int) (visited : List Int) : List Int :=
  (cm c).filter (fun x => !(decide (x ∈ c :: visited)))

/-- The `while queue:` loop of `get_descendants`.  The accumulator `visited`
records the dequeued ids, most recent first (the Python set `taxids` is its
underlying set).  A dequeued id is recorded, and its children that are not
yet recorded are appended to the queue.  Fuel exhaustion with a nonempty
queue yields `none`. -/
def bfsLoop (cm : Int → List Int) : Nat → List Int → List Int → Option (List Int)
  | _, [], visited => some visited
  | 0, _ :: _, _ => none
  | fuel + 1, c :: queue, visited =>
      bfsLoop cm fuel (queue ++ appL cm c visited) (c :: visited)

/-- Fuel that always suffices for `bfsLoop` on a well-formed node mapping. -/
def descFuel (nodes : NodesList) : Nat := 2 * nodes.length + 1

/-- The visit order of `get_descendants nodes root` (most recent first),
or `none` if the fuel bound were ever insufficient. -/
def bfsTrace (nodes : NodesList) (root : Int) : Option (List Int) :=
  bfsLoop (childrenMap nodes) (descFuel nodes) [root] []

/-- `get_descendants`: the set of tax_ids reachable from `root` through the
child index, computed by BFS. -/
def get_descendants (nodes : NodesList) (root : Int) : Finset Int :=
  ((bfsTrace nodes root).getD []).toFinset

/-! ## A depth-first traversal of the same child index -/

/-- Stack-based DFS over the same child index, used to compare traversal
orders: the head of the stack is visited if new, and its children are
pushed on top of the stack. -/
def dfsLoop (cm : Int → List Int) : Nat → List Int → List Int → Option (List Int)
  | _, [], visited => some visited
  | 0, _ :: _, _ => none
  | fuel + 1, c :: stack, visited =>
      if c ∈ visited then dfsLoop cm fuel stack visited
      else dfsLoop cm fuel (cm c ++ stack) (c :: visited)

/-- Fuel that always suffices for `dfsLoop`. -/
def dfsFuel (nodes : NodesList) : Nat :=
  1 + (parentsOf nodes).sum (fun p => (childrenMap nodes p).length)

/-- The subtree set computed by the depth-first traversal. -/
def dfs_descendants (nodes : NodesList) (root : Int) : Finset Int :=
  ((dfsLoop (childrenMap nodes) (dfsFuel nodes) [root] []).getD []).toFinset

/-! ## parse_names -/

/-- One already-split record of `names.dmp`:
`(tax_id, name_txt, unique_name, name_class)`, fields still untrimmed. -/
abbrev NameRec := Int × String × String × String

/-- `parse_names`: keep, for each tax_id in `taxid_filter`, the stripped
`name_txt` of records whose stripped `name_class` is the literal
`scientific name`; a later record overwrites an earlier one. -/
def parse_names (recs : List NameRec) (taxid_filter : Finset Int) : Dict String :=
  recs.foldl
    (fun names r =>
      if r.1 ∈ taxid_filter ∧ pyStrip r.2.2.2 = "scientific name" then
        dinsert r.1 (pyStrip r.2.1) names
      else names)
    []

/-! ## parse_division -/

/-- The field list of one `division.dmp` line:
`line.strip().split('\t|\t')`. -/
def divParts (line : String) : List String :=
  pySplit (pyStrip line) "\t|\t"

/-- Parse one `division.dmp` line to `(division_id, (code, name, comment))`;
`none` when `int(parts[0])` fails or the line has fewer than four fields
(either way the Python loop raises and the whole parse aborts). -/
def divLine (line : String) : Option (Int × (String × String × String)) :=
  match divParts line with
  | p0 :: p1 :: p2 :: p3 :: _ =>
      (pyParseInt p0).map (fun i => (i, (pyStrip p1, pyStrip p2, pyStrip p3)))
  | _ => none

/-- The sequential loop of `parse_division`: any bad line aborts the whole
parse, a well-formed line updates the dict. -/
def divLoop (acc : Dict (String × String × String)) :
    List String → Option (Dict (String × String × String))
  | [] => some acc
  | l :: rest =>
      match divLine l with
      | none => none
      | some r => divLoop (dinsert r.1 r.2 acc) rest

/-- `parse_division` over the list of input lines. -/
def parse_division (lines : List String) : Option (Dict (String × String × String)) :=
  divLoop [] lines

/-! ## The SQL renderer -/

/-- The single quote character. -/
def quoteC : Char := Char.ofNat 39

/-- A one-character string holding a single quote. -/
def sq : String := String.singleton quoteC

/-- Replace every occurrence of the character `old` by the string `rep`;
this is Python `s.replace(old, new)` for a one-character pattern. -/
def replaceChar (old : Char) (rep : List Char) : List Char → List Char
  | [] => []
  | c :: rest =>
      if c = old then rep ++ replaceChar old rep rest
      else c :: replaceChar old rep rest

/-- The renderer expression `s.replace(chr(39), chr(39) * 2)` applied to
rank and name values. -/
def sqlEscape (s : String) : String :=
  String.mk (replaceChar quoteC [quoteC, quoteC] s.toList)

/-- One `INSERT INTO division` line; the three string fields are emitted
verbatim between single quotes. -/
def renderDivisionRow (e : Int × (String × String × String)) : String :=
  "INSERT INTO division VALUES (" ++ toString e.1 ++ ", " ++
    sq ++ e.2.1 ++ sq ++ ", " ++ sq ++ e.2.2.1 ++ sq ++ ", " ++
    sq ++ e.2.2.2 ++ sq ++ ");\n"

/-- One `INSERT INTO taxon` line for a tax_id with known node value; only
the rank passes through `sqlEscape`. -/
def renderTaxonRowCore (t : Int) (nd : Node) : String :=
  "INSERT INTO taxon VALUES (" ++ toString t ++ ", " ++ toString nd.1 ++ ", " ++
    sq ++ sqlEscape nd.2.1 ++ sq ++ ", " ++ toString nd.2.2 ++ ");\n"

/-- The `nodes[tax_id]` lookup followed by the taxon INSERT; `none` models
the `KeyError` on a missing key. -/
def renderTaxonRow (nodes : NodesList) (t : Int) : Option String :=
  (dlookup t nodes).map (renderTaxonRowCore t)

/-- One `INSERT INTO taxon_name` line; the name passes through `sqlEscape`. -/
def renderNameRow (e : Int × String) : String :=
  "INSERT INTO taxon_name VALUES (" ++ toString e.1 ++ ", " ++
    sq ++ sqlEscape e.2 ++ sq ++ ");\n"

/-- The `CREATE TABLE division` statement emitted by the renderer. -/
def divisionDDL : String :=
  "CREATE TABLE division (\n  division_id INTEGER PRIMARY KEY,\n  division_code TEXT,\n  division_name TEXT,\n  comments TEXT\n);\n\n"

/-- The `CREATE TABLE taxon` statement emitted by the renderer. -/
def taxonDDL : String :=
  "CREATE TABLE taxon (\n  tax_id INTEGER PRIMARY KEY,\n  parent_tax_id INTEGER,\n  rank TEXT,\n  division_id INTEGER\n);\n\n"

/-- The `CREATE TABLE taxon_name` statement emitted by the renderer. -/
def taxonNameDDL : String :=
  "CREATE TABLE taxon_name (\n  tax_id INTEGER,\n  name TEXT,\n  UNIQUE(tax_id, name)\n);\n\n"

/-- The taxon INSERT block: one row per selected tax_id, in ascending
numeric order (`for tax_id in sorted(taxids)`); `none` when some selected
tax_id is missing from the node mapping. -/
def taxonSection (nodes : NodesList) (taxids : Finset Int) : Option String :=
  ((taxids.sort (· ≤ ·)).mapM (renderTaxonRow nodes)).map String.join

/-- `export_sql_with_division`: the full output file as one string, `none`
when a taxon lookup fails. -/
def export_sql_with_division (nodes : NodesList) (names : Dict String)
    (taxids : Finset Int) (divisions : Dict (String × String × String)) : Option String :=
  (taxonSection nodes taxids).map (fun ts =>
    divisionDDL ++ String.join (divisions.map renderDivisionRow) ++ "\n" ++
      taxonDDL ++ taxonNameDDL ++ ts ++ "\n" ++
      String.join (names.map renderNameRow))

/-- True when the character list contains two consecutive single quotes. -/
def adjQuote : List Char → Bool
  | a :: b :: rest => (a == quoteC && b == quoteC) || adjQuote (b :: rest)
  | _ => false

/-- Number of single-quote characters in a string. -/
def quoteCount (s : String) : Nat := s.toList.count quoteC

/-! ## Lemmas about the dict model -/

theorem dlookup_dinsert_self (k : Int) (v : α) :
    ∀ d : Dict α, dlookup k (dinsert k v d) = some v := by
  intro d
  induction d with
  | nil => simp [dinsert, dlookup]
  | cons e rest ih =>
    obtain ⟨q, w⟩ := e
    by_cases hqk : q = k
    · simp [dinsert, dlookup, hqk]
    · simp [dinsert, dlookup, hqk, ih]

theorem dlookup_dinsert_ne {k t : Int} (hne : k ≠ t) (v : α) :
    ∀ d : Dict α, dlookup t (dinsert k v d) = dlookup t d := by
  intro d
  induction d with
  | nil => simp [dinsert, dlookup, hne]
  | cons e rest ih =>
    obtain ⟨q, w⟩ := e
    by_cases hqk : q = k
    · subst hqk
      simp [dinsert, dlookup, hne]
    · simp [dinsert, dlookup, hqk, ih]

theorem dlookup_isSome_of_mem_keys {d : Dict α} {k : Int}
    (hk : k ∈ d.map Prod.fst) : (dlookup k d).isSome := by
  induction d with
  | nil => simp at hk
  | cons e rest ih =>
    obtain ⟨q, w⟩ := e
    by_cases hqk : q = k
    · simp [dlookup, hqk]
    · simp only [List.map_cons, List.mem_cons] at hk
      rcases hk with hk | hk
    -- the head key differs from k, so the membership is in the tail
      · exact absurd hk.symm hqk
      · simpa [dlookup, hqk] using ih hk

theorem oget_assoc (a b c : Option α) : oget (oget a b) c = oget a (oget b c) := by
  cases a <;> cases b <;> simp [oget]

theorem oget_none_right (a : Option α) : oget a none = a := by
  cases a <;> simp [oget]

theorem getLast?_cons_oget (v : α) (l : List α) :
    (v :: l).getLast? = oget l.getLast? (some v) := by
  cases l with
  | nil => simp [oget]
  | cons b rest =>
    rw [List.getLast?_cons_cons]
    cases h : (b :: rest).getLast? with
    | none => simp [List.getLast?_cons_cons] at h
    | some w => simp [oget]

/-! ## Lemmas about the child index -/

theorem mem_childrenMap {nodes : NodesList} {p x : Int} :
    x ∈ childrenMap nodes p ↔ ∃ nd : Node, (x, nd) ∈ nodes ∧ nd.1 = p := by
  simp only [childrenMap, List.mem_map, List.mem_filter, beq_iff_eq]
  constructor
  · rintro ⟨⟨a, nd⟩, ⟨hmem, hp⟩, rfl⟩
    exact ⟨nd, hmem, hp⟩
  · rintro ⟨nd, hmem, hp⟩
    exact ⟨(x, nd), ⟨hmem, hp⟩, rfl⟩

theorem childrenMap_subset_keys {nodes : NodesList} {p x : Int}
    (hx : x ∈ childrenMap nodes p) : x ∈ keysOf nodes := by
  obtain ⟨nd, hmem, _⟩ := mem_childrenMap.mp hx
  simp only [keysOf, List.mem_toFinset, List.mem_map]
  exact ⟨(x, nd), hmem, rfl⟩

theorem keys_nodup_val_unique {l : Dict α} (hk : (l.map Prod.fst).Nodup)
    {k : Int} {v w : α} (hv : (k, v) ∈ l) (hw : (k, w) ∈ l) : v = w := by
  induction l with
  | nil => simp at hv
  | cons e rest ih =>
    obtain ⟨q, u⟩ := e
    simp only [List.map_cons, List.nodup_cons] at hk
    rcases List.mem_cons.mp hv with hv1 | hv1 <;>
      rcases List.mem_cons.mp hw with hw1 | hw1
    · rw [Prod.mk.injEq] at hv1 hw1
      exact hv1.2.trans hw1.2.symm
    · rw [Prod.mk.injEq] at hv1
      exact absurd (hv1.1 ▸ List.mem_map_of_mem Prod.fst hw1) hk.1
    · rw [Prod.mk.injEq] at hw1
      exact absurd (hw1.1 ▸ List.mem_map_of_mem Prod.fst hv1) hk.1
    · exact ih hk.2 hv1 hw1

theorem childrenMap_parent_unique {nodes : NodesList}
    (hk : (nodes.map Prod.fst).Nodup) {x p q : Int}
    (hp : x ∈ childrenMap nodes p) (hq : x ∈ childrenMap nodes q) : p = q := by
  obtain ⟨nd1, h1, hp1⟩ := mem_childrenMap.mp hp
  obtain ⟨nd2, h2, hp2⟩ := mem_childrenMap.mp hq
  rw [← hp1, ← hp2, keys_nodup_val_unique hk h1 h2]

theorem childrenMap_nodup {nodes : NodesList}
    (hk : (nodes.map Prod.fst).Nodup) (p : Int) : (childrenMap nodes p).Nodup := by
  have hsub : List.Sublist ((nodes.filter (fun e => e.2.1 == p)).map (fun e => e.1))
      (nodes.map Prod.fst) := List.Sublist.map _ (List.filter_sublist nodes)
  exact hk.sublist hsub

theorem childrenMap_eq_nil_of_not_parent {nodes : NodesList} {p : Int}
    (hp : p ∉ parentsOf nodes) : childrenMap nodes p = [] := by
  rcases h : childrenMap nodes p with _ | ⟨x, rest⟩
  · rfl
  · exfalso
    have hx : x ∈ childrenMap nodes p := h ▸ List.mem_cons_self x rest
    obtain ⟨nd, hmem, hnd⟩ := mem_childrenMap.mp hx
    refine hp ?_
    simp only [parentsOf, List.mem_toFinset, List.mem_map]
    exact ⟨(x, nd), hmem, hnd⟩

/-! ## BFS: invariant, termination, soundness, completeness -/

theorem mem_appL {cm : Int → List Int} {c x : Int} {visited : List Int} :
    x ∈ appL cm c visited ↔ x ∈ cm c ∧ x ∉ c :: visited := by
  simp [appL, List.mem_filter]

/-- Invariant of the BFS loop: either we are at the initial state, or the
root has been visited, the queue holds pairwise distinct unvisited ids, and
every queued id is a recorded child of some visited id. -/
def BfsInv (nodes : NodesList) (root : Int) (queue visited : List Int) : Prop :=
  (queue = [root] ∧ visited = []) ∨
  (root ∈ visited ∧ queue.Nodup ∧ (∀ x ∈ queue, x ∉ visited) ∧
    ∀ x ∈ queue, ∃ p ∈ visited, x ∈ childrenMap nodes p)

theorem bfsInv_head {nodes : NodesList} {root c : Int} {queue visited : List Int}
    (hinv : BfsInv nodes root (c :: queue) visited) : c ∉ visited := by
  rcases hinv with ⟨_, hv⟩ | ⟨_, _, hdis, _⟩
  · rw [hv]
    exact List.not_mem_nil c
  · exact hdis c (List.mem_cons_self _ _)

theorem appL_props {nodes : NodesList} {root : Int}
    (hk : (nodes.map Prod.fst).Nodup) {c : Int} {q visited : List Int}
    (hinv : BfsInv nodes root (c :: q) visited) :
    (appL (childrenMap nodes) c visited).Nodup ∧
      ∀ x ∈ appL (childrenMap nodes) c visited,
        x ∈ keysOf nodes ∧ x ∉ visited ∧ x ≠ c ∧ x ∉ q := by
  constructor
  · exact (childrenMap_nodup hk c).filter _
  · intro x hx
    obtain ⟨hxc, hxnv⟩ := mem_appL.mp hx
    have hx_ne_c : x ≠ c := fun h => hxnv (h ▸ List.mem_cons_self c visited)
    have hx_nv : x ∉ visited := fun h => hxnv (List.mem_cons_of_mem _ h)
    refine ⟨childrenMap_subset_keys hxc, hx_nv, hx_ne_c, ?_⟩
    intro hxq
    rcases hinv with ⟨hq, hv⟩ | ⟨hroot, hnd, hdis, hpar⟩
    · injection hq with hc hq2
      rw [hq2] at hxq
      exact List.not_mem_nil x hxq
    · obtain ⟨p, hpv, hxp⟩ := hpar x (List.mem_cons_of_mem _ hxq)
      have hpc : p = c := childrenMap_parent_unique hk hxp hxc
      exact (hdis c (List.mem_cons_self _ _)) (hpc ▸ hpv)

theorem bfsInv_step {nodes : NodesList} {root : Int}
    (hk : (nodes.map Prod.fst).Nodup) {c : Int} {q visited : List Int}
    (hinv : BfsInv nodes root (c :: q) visited) :
    BfsInv nodes root (q ++ appL (childrenMap nodes) c visited) (c :: visited) := by
  obtain ⟨hnodupA, hpropsA⟩ := appL_props hk hinv
  rcases hinv with ⟨hq, hv⟩ | ⟨hroot, hnd, hdis, hpar⟩
  · injection hq with hc hq2
    subst hc
    subst hq2
    subst hv
    right
    refine ⟨List.mem_cons_self _ _, by simpa using hnodupA, ?_, ?_⟩
    · intro x hx
      simp only [List.nil_append] at hx
      obtain ⟨_, _, hxc, _⟩ := hpropsA x hx
      intro hmem
      rcases List.mem_cons.mp hmem with h1 | h1
      · exact hxc h1
      · exact List.not_mem_nil x h1
    · intro x hx
      simp only [List.nil_append] at hx
      exact ⟨c, List.mem_cons_self _ _, (mem_appL.mp hx).1⟩
  · right
    have hcq : c ∉ q := (List.nodup_cons.mp hnd).1
    have hndq : q.Nodup := (List.nodup_cons.mp hnd).2
    refine ⟨List.mem_cons_of_mem _ hroot, ?_, ?_, ?_⟩
    · refine List.Nodup.append hndq hnodupA ?_
      intro x hxq hxA
      exact (hpropsA x hxA).2.2.2 hxq
    · intro x hx
      rcases List.mem_append.mp hx with hxq | hxA
      · intro hmem
        rcases List.mem_cons.mp hmem with h1 | h1
        · exact hcq (h1 ▸ hxq)
        · exact hdis x (List.mem_cons_of_mem _ hxq) h1
      · obtain ⟨_, hnv, hnc, _⟩ := hpropsA x hxA
        intro hmem
        rcases List.mem_cons.mp hmem with h1 | h1
        · exact hnc h1
        · exact hnv h1
    · intro x hx
      rcases List.mem_append.mp hx with hxq | hxA
      · obtain ⟨p, hpv, hxp⟩ := hpar x (List.mem_cons_of_mem _ hxq)
        exact ⟨p, List.mem_cons_of_mem _ hpv, hxp⟩
      · exact ⟨c, List.mem_cons_self _ _, (mem_appL.mp hxA).1⟩

theorem bfs_visited_sub (cm : Int → List Int) :
    ∀ (fuel : Nat) (queue visited tr : List Int),
      bfsLoop cm fuel queue visited = some tr → ∀ x ∈ visited, x ∈ tr := by
  intro fuel
  induction fuel with
  | zero =>
    intro queue visited tr h x hx
    cases queue with
    | nil =>
      simp only [bfsLoop, Option.some.injEq] at h
      exact h ▸ hx
    | cons c q => simp [bfsLoop] at h
  | succ n ih =>
    intro queue visited tr h x hx
    cases queue with
    | nil =>
      simp only [bfsLoop, Option.some.injEq] at h
      exact h ▸ hx
    | cons c q =>
      simp only [bfsLoop] at h
      exact ih _ _ _ h x (List.mem_cons_of_mem _ hx)

theorem bfs_queue_mem (cm : Int → List Int) :
    ∀ (fuel : Nat) (queue visited tr : List Int),
      bfsLoop cm fuel queue visited = some tr → ∀ x ∈ queue, x ∈ tr := by
  intro fuel
  induction fuel with
  | zero =>
    intro queue visited tr h x hx
    cases queue with
    | nil => exact absurd hx (List.not_mem_nil x)
    | cons c q => simp [bfsLoop] at h
  | succ n ih =>
    intro queue visited tr h x hx
    cases queue with
    | nil => exact absurd hx (List.not_mem_nil x)
    | cons c q =>
      simp only [bfsLoop] at h
      rcases List.mem_cons.mp hx with h1 | h1
      · exact bfs_visited_sub cm _ _ _ _ h x (h1 ▸ List.mem_cons_self c visited)
      · exact ih _ _ _ h x (List.mem_append_left _ h1)

theorem bfs_sound (cm : Int → List Int) :
    ∀ (fuel : Nat) (queue visited tr : List Int),
      bfsLoop cm fuel queue visited = some tr →
      ∀ x ∈ tr, x ∈ visited ∨
        ∃ a ∈ queue, Relation.ReflTransGen (fun u v => v ∈ cm u) a x := by
  intro fuel
  induction fuel with
  | zero =>
    intro queue visited tr h x hx
    cases queue with
    | nil =>
      simp only [bfsLoop, Option.some.injEq] at h
      exact Or.inl (h ▸ hx)
    | cons c q => simp [bfsLoop] at h
  | succ n ih =>
    intro queue visited tr h x hx
    cases queue with
    | nil =>
      simp only [bfsLoop, Option.some.injEq] at h
      exact Or.inl (h ▸ hx)
    | cons c q =>
      simp only [bfsLoop] at h
      rcases ih _ _ _ h x hx with hv | ⟨a, ha, hr⟩
      · rcases List.mem_cons.mp hv with h1 | h1
        · exact Or.inr ⟨x, h1 ▸ List.mem_cons_self c q, Relation.ReflTransGen.refl⟩
        · exact Or.inl h1
      · rcases List.mem_append.mp ha with haq | happ
        · exact Or.inr ⟨a, List.mem_cons_of_mem _ haq, hr⟩
        · refine Or.inr ⟨c, List.mem_cons_self _ _, Relation.ReflTransGen.head ?_ hr⟩
          exact (mem_appL.mp happ).1

theorem bfs_closed (cm : Int → List Int) :
    ∀ (fuel : Nat) (queue visited tr : List Int),
      (∀ a ∈ visited, ∀ b, b ∈ cm a → b ∈ visited ∨ b ∈ queue) →
      bfsLoop cm fuel queue visited = some tr →
      ∀ a ∈ tr, ∀ b, b ∈ cm a → b ∈ tr := by
  intro fuel
  induction fuel with
  | zero =>
    intro queue visited tr hcl h a ha b hb
    cases queue with
    | nil =>
      simp only [bfsLoop, Option.some.injEq] at h
      subst h
      rcases hcl a ha b hb with h1 | h1
      · exact h1
      · exact absurd h1 (List.not_mem_nil b)
    | cons c q => simp [bfsLoop] at h
  | succ n ih =>
    intro queue visited tr hcl h a ha b hb
    cases queue with
    | nil =>
      simp only [bfsLoop, Option.some.injEq] at h
      subst h
      rcases hcl a ha b hb with h1 | h1
      · exact h1
      · exact absurd h1 (List.not_mem_nil b)
    | cons c q =>
      simp only [bfsLoop] at h
      refine ih _ _ _ ?_ h a ha b hb
      intro u hu w hw
      rcases List.mem_cons.mp hu with h1 | h1
      · by_cases hwv : w ∈ c :: visited
        · exact Or.inl hwv
        · exact Or.inr (List.mem_append_right _ (mem_appL.mpr ⟨h1 ▸ hw, hwv⟩))
      · rcases hcl u h1 w hw with h2 | h2
        · exact Or.inl (List.mem_cons_of_mem _ h2)
        · rcases List.mem_cons.mp h2 with h3 | h3
          · exact Or.inl (h3 ▸ List.mem_cons_self c visited)
          · exact Or.inr (List.mem_append_left _ h3)

theorem bfs_nodup {nodes : NodesList} {root : Int}
    (hk : (nodes.map Prod.fst).Nodup) :
    ∀ (fuel : Nat) (queue visited tr : List Int),
      BfsInv nodes root queue visited → visited.Nodup →
      bfsLoop (childrenMap nodes) fuel queue visited = some tr → tr.Nodup := by
  intro fuel
  induction fuel with
  | zero =>
    intro queue visited tr hinv hnd h
    cases queue with
    | nil =>
      simp only [bfsLoop, Option.some.injEq] at h
      exact h ▸ hnd
    | cons c q => simp [bfsLoop] at h
  | succ n ih =>
    intro queue visited tr hinv hnd h
    cases queue with
    | nil =>
      simp only [bfsLoop, Option.some.injEq] at h
      exact h ▸ hnd
    | cons c q =>
      simp only [bfsLoop] at h
      exact ih _ _ _ (bfsInv_step hk hinv)
        (List.nodup_cons.mpr ⟨bfsInv_head hinv, hnd⟩) h

theorem bfs_term {nodes : NodesList} {root : Int}
    (hk : (nodes.map Prod.fst).Nodup) :
    ∀ (fuel : Nat) (queue visited : List Int),
      BfsInv nodes root queue visited →
      queue.length + 2 * ((keysOf nodes) \ (visited.toFinset ∪ queue.toFinset)).card ≤ fuel →
      (bfsLoop (childrenMap nodes) fuel queue visited).isSome := by
  intro fuel
  induction fuel with
  | zero =>
    intro queue visited hinv hfuel
    have hq : queue = [] := List.length_eq_zero.mp (by omega)
    subst hq
    simp [bfsLoop]
  | succ n ih =>
    intro queue visited hinv hfuel
    cases queue with
    | nil => simp [bfsLoop]
    | cons c q =>
      simp only [bfsLoop]
      obtain ⟨hnodupA, hpropsA⟩ := appL_props hk hinv
      apply ih _ _ (bfsInv_step hk hinv)
      have hsubA : (appL (childrenMap nodes) c visited).toFinset ⊆
          (keysOf nodes) \ (visited.toFinset ∪ (c :: q).toFinset) := by
        intro x hx
        rw [List.mem_toFinset] at hx
        obtain ⟨hxK, hxnv, hxnc, hxnq⟩ := hpropsA x hx
        rw [Finset.mem_sdiff]
        refine ⟨hxK, ?_⟩
        simp only [Finset.mem_union, List.mem_toFinset, List.mem_cons]
        push_neg
        exact ⟨hxnv, hxnc, hxnq⟩
      have hNewDiff : (keysOf nodes) \
            ((c :: visited).toFinset ∪ (q ++ appL (childrenMap nodes) c visited).toFinset) =
          ((keysOf nodes) \ (visited.toFinset ∪ (c :: q).toFinset)) \
            (appL (childrenMap nodes) c visited).toFinset := by
        ext x
        simp only [Finset.mem_sdiff, Finset.mem_union, List.mem_toFinset, List.mem_cons,
          List.mem_append]
        tauto
      have hcardA : (appL (childrenMap nodes) c visited).toFinset.card =
          (appL (childrenMap nodes) c visited).length :=
        List.toFinset_card_of_nodup hnodupA
      have hcardle : (appL (childrenMap nodes) c visited).toFinset.card ≤
          ((keysOf nodes) \ (visited.toFinset ∪ (c :: q).toFinset)).card :=
        Finset.card_le_card hsubA
      have hcard := Finset.card_sdiff hsubA
      rw [hNewDiff, hcard, List.length_append]
      simp only [List.length_cons] at hfuel
      omega

theorem bfsTrace_isSome {nodes : NodesList} {root : Int}
    (hk : (nodes.map Prod.fst).Nodup) : (bfsTrace nodes root).isSome := by
  have h2 : (keysOf nodes).card ≤ nodes.length := by
    calc (keysOf nodes).card ≤ (nodes.map Prod.fst).length := List.toFinset_card_le _
      _ = nodes.length := List.length_map _ _
  have h1 : ((keysOf nodes) \ (([] : List Int).toFinset ∪ [root].toFinset)).card ≤
      (keysOf nodes).card := Finset.card_le_card (Finset.sdiff_subset)
  refine bfs_term hk _ _ _ (Or.inl ⟨rfl, rfl⟩) ?_
  simp only [descFuel, List.length_cons, List.length_nil]
  omega

theorem mem_get_descendants {nodes : NodesList} {root x : Int}
    (hk : (nodes.map Prod.fst).Nodup) :
    x ∈ get_descendants nodes root ↔
      Relation.ReflTransGen (childEdge nodes) root x := by
  obtain ⟨tr, htr⟩ := Option.isSome_iff_exists.mp (bfsTrace_isSome hk)
  rw [get_descendants, htr]
  simp only [Option.getD_some, List.mem_toFinset]
  rw [bfsTrace] at htr
  constructor
  · intro hx
    rcases bfs_sound (childrenMap nodes) _ _ _ _ htr x hx with hv | ⟨a, ha, hr⟩
    · exact absurd hv (List.not_mem_nil x)
    · have ha2 : a = root := by simpa using ha
      exact ha2 ▸ hr
  · intro hr
    induction hr with
    | refl => exact bfs_queue_mem _ _ _ _ _ htr root (List.mem_cons_self _ _)
    | tail hsteps hstep ih =>
      exact bfs_closed _ _ _ _ _
        (fun a ha => absurd ha (List.not_mem_nil a)) htr _ ih _ hstep

/-! ## DFS: termination, soundness, completeness -/

theorem dfs_visited_sub (cm : Int → List Int) :
    ∀ (fuel : Nat) (stack visited tr : List Int),
      dfsLoop cm fuel stack visited = some tr → ∀ x ∈ visited, x ∈ tr := by
  intro fuel
  induction fuel with
  | zero =>
    intro stack visited tr h x hx
    cases stack with
    | nil =>
      simp only [dfsLoop, Option.some.injEq] at h
      exact h ▸ hx
    | cons c q => simp [dfsLoop] at h
  | succ n ih =>
    intro stack visited tr h x hx
    cases stack with
    | nil =>
      simp only [dfsLoop, Option.some.injEq] at h
      exact h ▸ hx
    | cons c q =>
      simp only [dfsLoop] at h
      by_cases hcv : c ∈ visited
      · rw [if_pos hcv] at h
        exact ih _ _ _ h x hx
      · rw [if_neg hcv] at h
        exact ih _ _ _ h x (List.mem_cons_of_mem _ hx)

theorem dfs_stack_mem (cm : Int → List Int) :
    ∀ (fuel : Nat) (stack visited tr : List Int),
      dfsLoop cm fuel stack visited = some tr → ∀ x ∈ stack, x ∈ tr := by
  intro fuel
  induction fuel with
  | zero =>
    intro stack visited tr h x hx
    cases stack with
    | nil => exact absurd hx (List.not_mem_nil x)
    | cons c q => simp [dfsLoop] at h
  | succ n ih =>
    intro stack visited tr h x hx
    cases stack with
    | nil => exact absurd hx (List.not_mem_nil x)
    | cons c q =>
      simp only [dfsLoop] at h
      by_cases hcv : c ∈ visited
      · rw [if_pos hcv] at h
        rcases List.mem_cons.mp hx with h1 | h1
        · exact dfs_visited_sub cm _ _ _ _ h x (h1 ▸ hcv)
        · exact ih _ _ _ h x h1
      · rw [if_neg hcv] at h
        rcases List.mem_cons.mp hx with h1 | h1
        · exact dfs_visited_sub cm _ _ _ _ h x (h1 ▸ List.mem_cons_self c visited)
        · exact ih _ _ _ h x (List.mem_append_right _ h1)

theorem dfs_sound (cm : Int → List Int) :
    ∀ (fuel : Nat) (stack visited tr : List Int),
      dfsLoop cm fuel stack visited = some tr →
      ∀ x ∈ tr, x ∈ visited ∨
        ∃ a ∈ stack, Relation.ReflTransGen (fun u v => v ∈ cm u) a x := by
  intro fuel
  induction fuel with
  | zero =>
    intro stack visited tr h x hx
    cases stack with
    | nil =>
      simp only [dfsLoop, Option.some.injEq] at h
      exact Or.inl (h ▸ hx)
    | cons c q => simp [dfsLoop] at h
  | succ n ih =>
    intro stack visited tr h x hx
    cases stack with
    | nil =>
      simp only [dfsLoop, Option.some.injEq] at h
      exact Or.inl (h ▸ hx)
    | cons c q =>
      simp only [dfsLoop] at h
      by_cases hcv : c ∈ visited
      · rw [if_pos hcv] at h
        rcases ih _ _ _ h x hx with hv | ⟨a, ha, hr⟩
        · exact Or.inl hv
        · exact Or.inr ⟨a, List.mem_cons_of_mem _ ha, hr⟩
      · rw [if_neg hcv] at h
        rcases ih _ _ _ h x hx with hv | ⟨a, ha, hr⟩
        · rcases List.mem_cons.mp hv with h1 | h1
          · exact Or.inr ⟨x, h1 ▸ List.mem_cons_self c q, Relation.ReflTransGen.refl⟩
          · exact Or.inl h1
        · rcases List.mem_append.mp ha with hac | haq
          · exact Or.inr ⟨c, List.mem_cons_self _ _, Relation.ReflTransGen.head hac hr⟩
          · exact Or.inr ⟨a, List.mem_cons_of_mem _ haq, hr⟩

theorem dfs_closed (cm : Int → List Int) :
    ∀ (fuel : Nat) (stack visited tr : List Int),
      (∀ a ∈ visited, ∀ b, b ∈ cm a → b ∈ visited ∨ b ∈ stack) →
      dfsLoop cm fuel stack visited = some tr →
      ∀ a ∈ tr, ∀ b, b ∈ cm a → b ∈ tr := by
  intro fuel
  induction fuel with
  | zero =>
    intro stack visited tr hcl h a ha b hb
    cases stack with
    | nil =>
      simp only [dfsLoop, Option.some.injEq] at h
      subst h
      rcases hcl a ha b hb with h1 | h1
      · exact h1
      · exact absurd h1 (List.not_mem_nil b)
    | cons c q => simp [dfsLoop] at h
  | succ n ih =>
    intro stack visited tr hcl h a ha b hb
    cases stack with
    | nil =>
      simp only [dfsLoop, Option.some.injEq] at h
      subst h
      rcases hcl a ha b hb with h1 | h1
      · exact h1
      · exact absurd h1 (List.not_mem_nil b)
    | cons c q =>
      simp only [dfsLoop] at h
      by_cases hcv : c ∈ visited
      · rw [if_pos hcv] at h
        refine ih _ _ _ ?_ h a ha b hb
        intro u hu w hw
        rcases hcl u hu w hw with h1 | h1
        · exact Or.inl h1
        · rcases List.mem_cons.mp h1 with h2 | h2
          · exact Or.inl (h2 ▸ hcv)
          · exact Or.inr h2
      · rw [if_neg hcv] at h
        refine ih _ _ _ ?_ h a ha b hb
        intro u hu w hw
        rcases List.mem_cons.mp hu with h1 | h1
        · exact Or.inr (List.mem_append_left _ (h1 ▸ hw))
        · rcases hcl u h1 w hw with h2 | h2
          · exact Or.inl (List.mem_cons_of_mem _ h2)
          · rcases List.mem_cons.mp h2 with h3 | h3
            · exact Or.inl (h3 ▸ List.mem_cons_self c visited)
            · exact Or.inr (List.mem_append_right _ h3)

theorem dfs_term {nodes : NodesList} :
    ∀ (fuel : Nat) (stack visited : List Int),
      stack.length + ((parentsOf nodes) \ visited.toFinset).sum
        (fun p => (childrenMap nodes p).length) ≤ fuel →
      (dfsLoop (childrenMap nodes) fuel stack visited).isSome := by
  intro fuel
  induction fuel with
  | zero =>
    intro stack visited hfuel
    have hq : stack = [] := List.length_eq_zero.mp (by omega)
    subst hq
    simp [dfsLoop]
  | succ n ih =>
    intro stack visited hfuel
    cases stack with
    | nil => simp [dfsLoop]
    | cons c q =>
      simp only [dfsLoop]
      by_cases hcv : c ∈ visited
      · rw [if_pos hcv]
        apply ih
        simp only [List.length_cons] at hfuel
        omega
      · rw [if_neg hcv]
        apply ih
        have hV : (c :: visited).toFinset = insert c visited.toFinset :=
          List.toFinset_cons
        by_cases hcP : c ∈ parentsOf nodes
        · have hcPV : c ∈ (parentsOf nodes) \ visited.toFinset :=
            Finset.mem_sdiff.mpr ⟨hcP, by simpa using hcv⟩
          have hErase : (parentsOf nodes) \ (insert c visited.toFinset) =
              ((parentsOf nodes) \ visited.toFinset).erase c := by
            ext x
            simp only [Finset.mem_sdiff, Finset.mem_insert, Finset.mem_erase]
            tauto
          have hsum := Finset.sum_erase_add ((parentsOf nodes) \ visited.toFinset)
            (fun p => (childrenMap nodes p).length) hcPV
          dsimp only at hsum
          rw [List.length_append, hV, hErase]
          simp only [List.length_cons] at hfuel
          omega
        · have hnil : childrenMap nodes c = [] :=
            childrenMap_eq_nil_of_not_parent hcP
          have hsame : (parentsOf nodes) \ (insert c visited.toFinset) =
              (parentsOf nodes) \ visited.toFinset := by
            ext x
            simp only [Finset.mem_sdiff, Finset.mem_insert]
            constructor
            · rintro ⟨hxP, hx2⟩
              exact ⟨hxP, fun h => hx2 (Or.inr h)⟩
            · rintro ⟨hxP, hx2⟩
              refine ⟨hxP, ?_⟩
              rintro (rfl | h)
              · exact hcP hxP
              · exact hx2 h
          rw [List.length_append, hnil, hV, hsame]
          simp only [List.length_nil, List.length_cons] at hfuel ⊢
          omega

theorem dfsLoop_isSome (nodes : NodesList) (root : Int) :
    (dfsLoop (childrenMap nodes) (dfsFuel nodes) [root] []).isSome := by
  apply dfs_term
  simp only [dfsFuel, List.length_cons, List.length_nil, List.toFinset_nil,
    Finset.sdiff_empty]
  omega

theorem mem_dfs_descendants {nodes : NodesList} {root x : Int} :
    x ∈ dfs_descendants nodes root ↔
      Relation.ReflTransGen (childEdge nodes) root x := by
  obtain ⟨tr, htr⟩ := Option.isSome_iff_exists.mp (dfsLoop_isSome nodes root)
  rw [dfs_descendants, htr]
  simp only [Option.getD_some, List.mem_toFinset]
  constructor
  · intro hx
    rcases dfs_sound (childrenMap nodes) _ _ _ _ htr x hx with hv | ⟨a, ha, hr⟩
    · exact absurd hv (List.not_mem_nil x)
    · have ha2 : a = root := by simpa using ha
      exact ha2 ▸ hr
  · intro hr
    induction hr with
    | refl => exact dfs_stack_mem _ _ _ _ _ htr root (List.mem_cons_self _ _)
    | tail hsteps hstep ih =>
      exact dfs_closed _ _ _ _ _
        (fun a ha => absurd ha (List.not_mem_nil a)) htr _ ih _ hstep

/-! ## Concrete fixtures -/

/-- The five-node example mapping of the specification: 2 and 3 are
children of 1, 4 is a child of 2, and 5 hangs under the absent parent 99
(ranks and division ids arbitrary). -/
def nodesExample : NodesList :=
  [(1, (1, "no rank", 0)), (2, (1, "genus", 0)), (3, (1, "genus", 0)),
   (4, (2, "species", 0)), (5, (99, "species", 0))]

/-- A two-node mapping whose parent references form a cycle reachable from
the root. -/
def nodesCycle : NodesList := [(1, (2, "a", 0)), (2, (1, "b", 0))]

/-- Rows of an `Option`-valued map are all defined exactly on lists where
every element maps to `some`. -/
theorem mapM_option_isSome {β : Type} (f : Int → Option β) :
    ∀ l : List Int, (∀ x ∈ l, (f x).isSome) → (l.mapM f).isSome := by
  intro l
  induction l with
  | nil => intro _; rfl
  | cons x rest ih =>
    intro hall
    rw [List.mapM_cons]
    obtain ⟨b, hb⟩ := Option.isSome_iff_exists.mp (hall x (List.mem_cons_self _ _))
    obtain ⟨bs, hbs⟩ := Option.isSome_iff_exists.mp
      (ih (fun y hy => hall y (List.mem_cons_of_mem _ hy)))
    rw [hb, hbs]
    simp

/-! ## Claims about the subtree selector -/

/-- C2: for every node mapping and root id, the set returned by
`get_descendants` contains the root id. -/
theorem get_descendants_contains_root (nodes : NodesList) (root : Int)
    (hk : (nodes.map Prod.fst).Nodup) : root ∈ get_descendants nodes root :=
  (mem_get_descendants hk).mpr Relation.ReflTransGen.refl

/-- Witness for C2 at the concrete cyclic mapping. -/
theorem get_descendants_contains_root_witness :
    (nodesCycle.map Prod.fst).Nodup ∧ 1 ∈ get_descendants nodesCycle 1 :=
  ⟨by decide, get_descendants_contains_root nodesCycle 1 (by decide)⟩

/-- C3: the BFS dequeues and processes each taxon id at most once: the
visit order recorded by the loop has no duplicates. -/
theorem bfs_visits_each_id_once (nodes : NodesList) (root : Int)
    (hk : (nodes.map Prod.fst).Nodup) {tr : List Int}
    (htr : bfsTrace nodes root = some tr) : tr.Nodup := by
  rw [bfsTrace] at htr
  exact bfs_nodup hk _ _ _ _ (Or.inl ⟨rfl, rfl⟩) List.nodup_nil htr

/-- Witness for C3: on the example tree the trace is computed and is
duplicate-free. -/
theorem bfs_visits_each_id_once_witness :
    (nodesExample.map Prod.fst).Nodup ∧
      bfsTrace nodesExample 1 = some [4, 3, 2, 1] ∧ ([4, 3, 2, 1] : List Int).Nodup :=
  ⟨by decide, by decide,
    bfs_visits_each_id_once nodesExample 1 (by decide) (by decide)⟩

/-- C4: the BFS subtree set equals the set computed by a depth-first
traversal of the same parent-to-children index. -/
theorem bfs_dfs_same_set (nodes : NodesList) (root : Int)
    (hk : (nodes.map Prod.fst).Nodup) :
    get_descendants nodes root = dfs_descendants nodes root :=
  Finset.ext fun _ => (mem_get_descendants hk).trans mem_dfs_descendants.symm

/-- Witness for C4 at the concrete example tree. -/
theorem bfs_dfs_same_set_witness :
    (nodesExample.map Prod.fst).Nodup ∧
      get_descendants nodesExample 1 = dfs_descendants nodesExample 1 :=
  ⟨by decide, bfs_dfs_same_set nodesExample 1 (by decide)⟩

/-- C5: on the mapping 1 to 1, 2 to 1, 3 to 1, 4 to 2, 5 to 99, selecting
root 1 yields exactly the set 1, 2, 3, 4 and so excludes 5. -/
theorem get_descendants_small_tree :
    get_descendants nodesExample 1 = {1, 2, 3, 4} ∧
      (5 : Int) ∉ get_descendants nodesExample 1 := by
  constructor
  · decide
  · decide

/-- C9: the BFS terminates within the stated fuel for every well-formed
finite node mapping and every root, cycles included. -/
theorem get_descendants_terminates (nodes : NodesList) (root : Int)
    (hk : (nodes.map Prod.fst).Nodup) : (bfsTrace nodes root).isSome = true :=
  bfsTrace_isSome hk

/-- Witness for C9 at a mapping whose parent references form a cycle
reachable from the root. -/
theorem get_descendants_terminates_witness :
    (nodesCycle.map Prod.fst).Nodup ∧ (bfsTrace nodesCycle 1).isSome = true :=
  ⟨by decide, get_descendants_terminates nodesCycle 1 (by decide)⟩

/-- C10: every selected taxon other than the root is a key of the node
mapping; hence when the root is a key, the per-taxon lookup of the renderer
succeeds on every selected taxon and the whole export is defined. -/
theorem descendants_in_keys_and_lookup (nodes : NodesList) (root : Int)
    (hk : (nodes.map Prod.fst).Nodup) :
    (∀ x ∈ get_descendants nodes root, x ≠ root → x ∈ keysOf nodes) ∧
      (dlookup root nodes ≠ none →
        ∀ t ∈ get_descendants nodes root, (renderTaxonRow nodes t).isSome = true) ∧
      (dlookup root nodes ≠ none →
        ∀ (names : Dict String) (divisions : Dict (String × String × String)),
          (export_sql_with_division nodes names (get_descendants nodes root)
            divisions).isSome = true) := by
  have hkeys : ∀ x ∈ get_descendants nodes root, x ≠ root → x ∈ keysOf nodes := by
    intro x hx hne
    have hr := (mem_get_descendants hk).mp hx
    rcases Relation.ReflTransGen.cases_tail hr with h1 | ⟨c, _, hstep⟩
    · exact absurd h1 hne
    · exact childrenMap_subset_keys hstep
  have hrow : dlookup root nodes ≠ none →
      ∀ t ∈ get_descendants nodes root, (renderTaxonRow nodes t).isSome = true := by
    intro hroot t ht
    rw [renderTaxonRow, Option.isSome_map']
    by_cases htr : t = root
    · subst htr
      exact Option.ne_none_iff_isSome.mp hroot
    · have hkey : t ∈ nodes.map Prod.fst := by
        have := hkeys t ht htr
        simpa [keysOf] using this
      exact dlookup_isSome_of_mem_keys hkey
  refine ⟨hkeys, hrow, ?_⟩
  intro hroot names divisions
  rw [export_sql_with_division, Option.isSome_map', taxonSection, Option.isSome_map']
  apply mapM_option_isSome
  intro t ht
  exact hrow hroot t ((Finset.mem_sort _).mp ht)

/-- Witness for C10 at the concrete example tree with root 1. -/
theorem descendants_in_keys_and_lookup_witness :
    (nodesExample.map Prod.fst).Nodup ∧ dlookup 1 nodesExample ≠ none ∧
      (∀ x ∈ get_descendants nodesExample 1, x ≠ 1 → x ∈ keysOf nodesExample) ∧
      (export_sql_with_division nodesExample [] (get_descendants nodesExample 1)
        []).isSome = true :=
  ⟨by decide, by decide,
    (descendants_in_keys_and_lookup nodesExample 1 (by decide)).1,
    (descendants_in_keys_and_lookup nodesExample 1 (by decide)).2.2
      (by decide) [] []⟩

/-! ## The name loader -/

theorem oget_some (v : α) (b : Option α) : oget (some v) b = some v := rfl

theorem parse_names_loop (filt : Finset Int) :
    ∀ (recs : List NameRec) (acc : Dict String) (t : Int),
      dlookup t (recs.foldl (fun names r =>
        if r.1 ∈ filt ∧ pyStrip r.2.2.2 = "scientific name" then
          dinsert r.1 (pyStrip r.2.1) names
        else names) acc) =
      oget ((recs.filter (fun r =>
          decide (r.1 = t ∧ r.1 ∈ filt ∧ pyStrip r.2.2.2 = "scientific name"))).map
        (fun r => pyStrip r.2.1)).getLast? (dlookup t acc) := by
  intro recs
  induction recs with
  | nil =>
    intro acc t
    simp [oget]
  | cons r rest ih =>
    intro acc t
    rw [List.foldl_cons, List.filter_cons]
    by_cases hc : r.1 ∈ filt ∧ pyStrip r.2.2.2 = "scientific name"
    · rw [if_pos hc]
      by_cases ht : r.1 = t
      · have hfin : t ∈ filt := ht ▸ hc.1
        have hpred : decide (r.1 = t ∧ r.1 ∈ filt ∧ pyStrip r.2.2.2 = "scientific name") = true := by
          simp [ht, hfin, hc.2]
        rw [hpred, if_pos rfl, List.map_cons, getLast?_cons_oget, ih, ht,
          dlookup_dinsert_self, oget_assoc, oget_some]
      · have hpred : decide (r.1 = t ∧ r.1 ∈ filt ∧ pyStrip r.2.2.2 = "scientific name") = false := by
          simp [ht]
        rw [hpred]
        simp only [Bool.false_eq_true, if_false]
        rw [ih, dlookup_dinsert_ne ht]
    · rw [if_neg hc]
      have hpred : decide (r.1 = t ∧ r.1 ∈ filt ∧ pyStrip r.2.2.2 = "scientific name") = false := by
        simp only [decide_eq_false_iff_not]
        rintro ⟨h1, h2, h3⟩
        exact hc ⟨h2, h3⟩
      rw [hpred]
      simp only [Bool.false_eq_true, if_false]
      exact ih acc t

/-- C6: `parse_names` holds an entry for `t` exactly when `t` belongs to the
subtree set and some record for `t` has name class `scientific name`; the
stored text is the stripped name of the last such record. -/
theorem parse_names_spec (recs : List NameRec) (filt : Finset Int) (t : Int) :
    dlookup t (parse_names recs filt) =
      if t ∈ filt then
        ((recs.filter (fun r =>
            decide (r.1 = t ∧ pyStrip r.2.2.2 = "scientific name"))).map
          (fun r => pyStrip r.2.1)).getLast?
      else none := by
  rw [parse_names, parse_names_loop filt recs [] t,
    show dlookup t ([] : Dict String) = none from rfl, oget_none_right]
  by_cases ht : t ∈ filt
  · rw [if_pos ht]
    congr 1
    refine congrArg (List.map fun r : NameRec => pyStrip r.2.1) (List.filter_congr ?_)
    intro r hr
    by_cases h1 : r.1 = t
    · simp [h1, ht]
    · simp [h1]
  · rw [if_neg ht]
    have hnil : (recs.filter (fun r =>
        decide (r.1 = t ∧ r.1 ∈ filt ∧ pyStrip r.2.2.2 = "scientific name"))) = [] := by
      rw [List.filter_eq_nil_iff]
      intro r hr
      simp only [decide_eq_true_eq, not_and]
      intro h1 h2
      exact absurd (h1 ▸ h2) ht
    rw [hnil]
    simp

/-! ## The division loader -/

theorem divLine_eq_none_iff (line : String) :
    divLine line = none ↔
      (divParts line).length < 4 ∨ pyParseInt ((divParts line).headD "") = none := by
  rcases hp : divParts line with _ | ⟨p0, _ | ⟨p1, _ | ⟨p2, _ | ⟨p3, rest⟩⟩⟩⟩
  · simp [divLine, hp]
  · simp [divLine, hp]
  · simp [divLine, hp]
  · simp [divLine, hp]
  · simp only [divLine, hp, List.headD_cons, List.length_cons]
    constructor
    · intro h
      right
      exact Option.map_eq_none'.mp h
    · rintro (h | h)
      · omega
      · rw [h]
        rfl

theorem divLoop_eq_none_iff :
    ∀ (lines : List String) (acc : Dict (String × String × String)),
      divLoop acc lines = none ↔ ∃ l ∈ lines, divLine l = none := by
  intro lines
  induction lines with
  | nil => intro acc; simp [divLoop]
  | cons l rest ih =>
    intro acc
    simp only [divLoop]
    rcases hL : divLine l with _ | r
    · exact iff_of_true rfl ⟨l, List.mem_cons_self _ _, hL⟩
    · rw [ih]
      constructor
      · rintro ⟨x, hx, hxn⟩
        exact ⟨x, List.mem_cons_of_mem _ hx, hxn⟩
      · rintro ⟨x, hx, hxn⟩
        rcases List.mem_cons.mp hx with h1 | h1
        · rw [h1, hL] at hxn
          exact absurd hxn (Option.some_ne_none r)
        · exact ⟨x, h1, hxn⟩

theorem divLoop_lookup :
    ∀ (lines : List String) (acc m : Dict (String × String × String)) (i : Int),
      divLoop acc lines = some m →
      dlookup i m =
        oget (((lines.filterMap divLine).filter (fun r => decide (r.1 = i))).map
          (fun r => r.2)).getLast? (dlookup i acc) := by
  intro lines
  induction lines with
  | nil =>
    intro acc m i h
    simp only [divLoop, Option.some.injEq] at h
    subst h
    simp [oget]
  | cons l rest ih =>
    intro acc m i h
    simp only [divLoop] at h
    rcases hL : divLine l with _ | r
    · rw [hL] at h
      exact absurd h (by simp)
    · rw [hL] at h
      rw [List.filterMap_cons, hL, List.filter_cons]
      by_cases hri : r.1 = i
      · have hd : decide (r.1 = i) = true := by simp [hri]
        rw [hd, if_pos rfl, List.map_cons, getLast?_cons_oget, ih _ _ _ h, hri,
          dlookup_dinsert_self, oget_assoc, oget_some]
      · have hd : decide (r.1 = i) = false := by simp [hri]
        rw [hd]
        simp only [Bool.false_eq_true, if_false]
        rw [ih _ _ _ h, dlookup_dinsert_ne hri]

/-- C8: the division loader fails exactly when some line has fewer than
four tab-pipe-tab fields or a first field that is not an integer; on
success, a repeated division id keeps the fields of the last such line. -/
theorem parse_division_spec (lines : List String) :
    (parse_division lines = none ↔
      ∃ l ∈ lines,
        (divParts l).length < 4 ∨ pyParseInt ((divParts l).headD "") = none) ∧
    ∀ m, parse_division lines = some m → ∀ i : Int,
      dlookup i m =
        (((lines.filterMap divLine).filter (fun r => decide (r.1 = i))).map
          (fun r => r.2)).getLast? := by
  constructor
  · rw [parse_division, divLoop_eq_none_iff]
    constructor
    · rintro ⟨l, hl, hln⟩
      exact ⟨l, hl, (divLine_eq_none_iff l).mp hln⟩
    · rintro ⟨l, hl, hbad⟩
      exact ⟨l, hl, (divLine_eq_none_iff l).mpr hbad⟩
  · intro m hm i
    rw [parse_division] at hm
    rw [divLoop_lookup lines [] m i hm,
      show dlookup i ([] : Dict (String × String × String)) = none from rfl,
      oget_none_right]

/-- Witness for C8: a duplicated id keeps the last fields, and a three-field
line aborts the parse. -/
theorem parse_division_spec_witness :
    parse_division ["1\t|\tA\t|\tB\t|\tC", "1\t|\tD\t|\tE\t|\tF"] =
        some [(1, ("D", "E", "F"))] ∧
      dlookup 1 ([(1, ("D", "E", "F"))] : Dict (String × String × String)) =
        some ("D", "E", "F") ∧
      parse_division ["1\t|\tA\t|\tB"] = none := by
  refine ⟨by decide, ?_, ?_⟩
  · rw [(parse_division_spec ["1\t|\tA\t|\tB\t|\tC", "1\t|\tD\t|\tE\t|\tF"]).2
      [(1, ("D", "E", "F"))] (by decide) 1]
    decide
  · exact (parse_division_spec ["1\t|\tA\t|\tB"]).1.mpr
      ⟨"1\t|\tA\t|\tB", by decide, Or.inl (by decide)⟩

/-! ## The renderer: quote counting -/

theorem digitChar_ne_quote (n : Nat) : Nat.digitChar n ≠ quoteC := by
  intro h
  rcases Nat.lt_or_ge n 16 with hlt | hge
  · interval_cases n <;> exact absurd h (by decide)
  · have h16 : Nat.digitChar n = Char.ofNat 42 := by
      unfold Nat.digitChar
      repeat rw [if_neg (by omega)]
    rw [h16] at h
    exact absurd h (by decide)

theorem toDigitsCore_ne_quote :
    ∀ (fuel n : Nat) (acc : List Char), (∀ c ∈ acc, c ≠ quoteC) →
      ∀ c ∈ Nat.toDigitsCore 10 fuel n acc, c ≠ quoteC := by
  intro fuel
  induction fuel with
  | zero =>
    intro n acc hacc c hc
    simp only [Nat.toDigitsCore] at hc
    exact hacc c hc
  | succ f ih =>
    intro n acc hacc c hc
    simp only [Nat.toDigitsCore] at hc
    by_cases h10 : n / 10 = 0
    · rw [if_pos h10] at hc
      rcases List.mem_cons.mp hc with h1 | h1
      · exact h1 ▸ digitChar_ne_quote _
      · exact hacc c h1
    · rw [if_neg h10] at hc
      refine ih _ _ ?_ c hc
      intro d hd
      rcases List.mem_cons.mp hd with h1 | h1
      · exact h1 ▸ digitChar_ne_quote _
      · exact hacc d h1

theorem quote_not_mem_natRepr (n : Nat) : quoteC ∉ (Nat.repr n).toList := by
  intro hmem
  exact toDigitsCore_ne_quote _ _ []
    (fun c hc => absurd hc (List.not_mem_nil c)) quoteC hmem rfl

theorem quoteCount_int (i : Int) : quoteCount (toString i) = 0 := by
  rw [quoteCount, List.count_eq_zero]
  cases i with
  | ofNat m => exact quote_not_mem_natRepr m
  | negSucc m =>
    intro hmem
    have hsplit : (("-" : String) ++ Nat.repr (m + 1)).toList =
        Char.ofNat 45 :: (Nat.repr (m + 1)).toList := by
      rcases h : Nat.repr (m + 1) with ⟨l⟩
      rfl
    have hmem2 : quoteC ∈ (("-" : String) ++ Nat.repr (m + 1)).toList := hmem
    rw [hsplit] at hmem2
    rcases List.mem_cons.mp hmem2 with h1 | h1
    · exact absurd h1 (by decide)
    · exact quote_not_mem_natRepr (m + 1) h1

theorem quoteCount_append (a b : String) :
    quoteCount (a ++ b) = quoteCount a + quoteCount b := by
  rcases a with ⟨la⟩
  rcases b with ⟨lb⟩
  show List.count quoteC (la ++ lb) = List.count quoteC la + List.count quoteC lb
  exact List.count_append _ _ _

theorem count_replaceChar (l : List Char) :
    (replaceChar quoteC [quoteC, quoteC] l).count quoteC = 2 * l.count quoteC := by
  induction l with
  | nil => rfl
  | cons c rest ih =>
    by_cases hc : c = quoteC
    · simp only [replaceChar, if_pos hc]
      subst hc
      simp only [List.count_append, List.count_cons, ih]
      simp
      omega
    · simp only [replaceChar, if_neg hc]
      simp only [List.count_cons, ih]
      simp [hc]

theorem quoteCount_sqlEscape (s : String) :
    quoteCount (sqlEscape s) = 2 * quoteCount s := by
  rcases s with ⟨l⟩
  exact count_replaceChar l

/-! ## Claims about the renderer -/

set_option maxRecDepth 10000 in
/-- Refutation for C1: a division comment holding a single quote is emitted
verbatim; the rendered output (row and full export) has a quote character
but nowhere two consecutive quotes, so the embedded quote is not doubled. -/
theorem division_quote_not_doubled :
    quoteCount ("O" ++ sq ++ "Brien") = 1 ∧
      renderDivisionRow (1, ("PL", "Plants", "O" ++ sq ++ "Brien")) =
        "INSERT INTO division VALUES (1, " ++ sq ++ "PL" ++ sq ++ ", " ++
          sq ++ "Plants" ++ sq ++ ", " ++ sq ++ "O" ++ sq ++ "Brien" ++ sq ++ ");\n" ∧
      adjQuote (renderDivisionRow (1, ("PL", "Plants", "O" ++ sq ++ "Brien"))).toList
        = false ∧
      (export_sql_with_division [] [] ∅
        [(1, ("PL", "Plants", "O" ++ sq ++ "Brien"))]).isSome = true ∧
      adjQuote ((export_sql_with_division [] [] ∅
        [(1, ("PL", "Plants", "O" ++ sq ++ "Brien"))]).getD "").toList = false := by
  have hexp : export_sql_with_division [] [] ∅
      [(1, ("PL", "Plants", "O" ++ sq ++ "Brien"))] =
      some (divisionDDL ++ renderDivisionRow (1, ("PL", "Plants", "O" ++ sq ++ "Brien")) ++
        "\n" ++ taxonDDL ++ taxonNameDDL ++ "\n") := by
    simp only [export_sql_with_division, taxonSection, Finset.sort_empty]
    decide
  refine ⟨by decide, by decide, by decide, ?_, ?_⟩
  · rw [hexp]
    rfl
  · rw [hexp]
    decide

/-- C1 amended: single quotes are doubled in the rank of taxon INSERT rows
and in the name of taxon_name INSERT rows (each contributing twice its
quotes plus the two delimiters), while the division INSERT row emits its
three string fields verbatim (their quotes surviving unchanged next to the
six delimiter quotes). -/
theorem renderer_escaping_amended (t p dv i : Int) (s rank code nm comment : String) :
    quoteCount (renderNameRow (t, s)) = 2 * quoteCount s + 2 ∧
      quoteCount (renderTaxonRowCore t (p, rank, dv)) = 2 * quoteCount rank + 2 ∧
      quoteCount (renderDivisionRow (i, (code, nm, comment))) =
        quoteCount code + quoteCount nm + quoteCount comment + 6 := by
  have hsq : quoteCount sq = 1 := by decide
  have hA : quoteCount "INSERT INTO taxon_name VALUES (" = 0 := by decide
  have hB : quoteCount ", " = 0 := by decide
  have hC : quoteCount ");\n" = 0 := by decide
  have hD : quoteCount "INSERT INTO taxon VALUES (" = 0 := by decide
  have hE : quoteCount "INSERT INTO division VALUES (" = 0 := by decide
  refine ⟨?_, ?_, ?_⟩ <;>
    · simp only [renderNameRow, renderTaxonRowCore, renderDivisionRow, quoteCount_append,
        quoteCount_int, quoteCount_sqlEscape, hsq, hA, hB, hC, hD, hE]
      omega

/-- C7: the taxon INSERT rows of the output are indexed by a strictly
ascending enumeration of exactly the subtree set, and the taxon_name INSERT
rows follow the iteration order of the name mapping as given. -/
theorem taxon_rows_sorted_name_rows_in_order (nodes : NodesList) (names : Dict String)
    (taxids : Finset Int) (divisions : Dict (String × String × String)) :
    ∃ ids : List Int, List.Sorted (· < ·) ids ∧ (∀ t : Int, t ∈ ids ↔ t ∈ taxids) ∧
      export_sql_with_division nodes names taxids divisions =
        (ids.mapM (renderTaxonRow nodes)).map (fun rows =>
          divisionDDL ++ String.join (divisions.map renderDivisionRow) ++ "\n" ++
            taxonDDL ++ taxonNameDDL ++ String.join rows ++ "\n" ++
            String.join (names.map renderNameRow)) := by
  refine ⟨taxids.sort (· ≤ ·), Finset.sort_sorted_lt taxids,
    fun t => Finset.mem_sort _, ?_⟩
  rw [export_sql_with_division, taxonSection, Option.map_map]
  rfl

/-- Witness for C6: of a scientific-name record and a synonym record for
taxon 1, only the stripped scientific name is retained. -/
theorem parse_names_spec_witness :
    dlookup 1 (parse_names
      [(1, (" Rosa ", "", "scientific name")), (1, ("Syn", "", "synonym"))] {1}) =
      some "Rosa" := by
  rw [parse_names_spec]
  decide

/-- Witness for C7 at a one-taxon selection. -/
theorem taxon_rows_sorted_name_rows_in_order_witness :
    ∃ ids : List Int, List.Sorted (· < ·) ids ∧
      (∀ t : Int, t ∈ ids ↔ t ∈ ({1} : Finset Int)) ∧
      export_sql_with_division nodesExample [(1, "Rosa")] {1} [] =
        (ids.mapM (renderTaxonRow nodesExample)).map (fun rows =>
          divisionDDL ++ String.join (([] : Dict (String × String × String)).map
              renderDivisionRow) ++ "\n" ++
            taxonDDL ++ taxonNameDDL ++ String.join rows ++ "\n" ++
            String.join (([(1, "Rosa")] : Dict String).map renderNameRow)) :=
  taxon_rows_sorted_name_rows_in_order nodesExample [(1, "Rosa")] {1} []

end BotanyDict
